import Mathlib

/-
Verification of the go.mod scanner and splicer core (parse.go) and of the
version decision logic (pub.go) of the pub module publisher.

Modeling conventions.  Byte buffers are List Nat (one entry per byte).
Functions that can read past the end of a buffer in the source return
Option; a result of none marks exactly the inputs on which the source
crashes with an index-out-of-range error.  Go slice reads b[i:j] that the
source only performs after an explicit bounds test are modeled with
take/drop.  Go int is modeled as Int restricted to 64 bits: the numeric
conversion strconv.Atoi clamps at 2 ^ 63 - 1 on range overflow and
addition wraps (two's complement), and both behaviors are preserved here.
Loops carry an explicit fuel argument, always invoked with fuel larger
than the possible number of iterations (see the *_mono lemmas), so every
definition computes by kernel reduction.
-/

namespace Pub

/-- Bytes of the characters of a string literal; used to write concrete
test buffers. -/
def strBytes (s : String) : List Nat := s.data.map Char.toNat

/-- Newline byte, the constant lin of parse.go. -/
def lin : Nat := 10

/-- Carriage-return byte, the constant ret of parse.go. -/
def ret : Nat := 13

/-- Tab byte, the constant tab of parse.go. -/
def tab : Nat := 9

/-- Space byte, the constant spc of parse.go. -/
def spc : Nat := 32

/-- Backslash byte, the constant esc of parse.go. -/
def esc : Nat := 92

/-- Single-quote byte, the constant aps of parse.go. -/
def aps : Nat := 39

/-- Double-quote byte, the constant qot of parse.go. -/
def qot : Nat := 34

/-- Slash byte, the constant com of parse.go. -/
def com : Nat := 47

/-- Dot byte, the separator of version components. -/
def dot : Nat := 46

/-- Bytes of the keyword "module " that the scanner looks for. -/
def modBytes : List Nat := [109, 111, 100, 117, 108, 101, 32]

/-- Bytes of the version lead-in "//v". -/
def preBytes : List Nat := [47, 47, 118]

/-- Translation of isspace of parse.go. -/
def isspace (b : Nat) : Bool := b == ret || b == lin || b == tab || b == spc

/-- Translation of isnum of parse.go and pub.go. -/
def isnum (b : Nat) : Bool := decide (48 ≤ b) && decide (b ≤ 57)

/-- Go slice b[s:e], total because every use in the source is in range. -/
def slice (b : List Nat) (s e : Nat) : List Nat := (b.drop s).take (e - s)

/-- Translation of iscomm of parse.go.  The source reads b[at] and then,
when that byte is a slash, b[at+1]; none marks the reads that are out of
range and crash in Go. -/
def iscomm (b : List Nat) (i : Nat) : Option Bool :=
  match b[i]? with
  | none => none
  | some c =>
    if c = com then
      match b[i + 1]? with
      | none => none
      | some c2 => some (decide (c2 = com))
    else some false

/-- Loop body of search of parse.go, with fuel. -/
def searchF : Nat → Nat → List Nat → Nat → Nat
  | 0, _, _, i => i
  | f + 1, x, b, i =>
    match b[i]? with
    | none => i
    | some c => if c = x then i else searchF f x b (i + 1)

/-- Translation of search of parse.go: index of the first occurrence of x
at or after position i, or the length of the buffer. -/
def search (x : Nat) (b : List Nat) (i : Nat) : Nat := searchF (b.length + 1) x b i

/-- Translation of skipComment of parse.go. -/
def skipComment (b : List Nat) (i : Nat) : Option Nat :=
  match iscomm b i with
  | none => none
  | some true => some (search lin b (i + 2))
  | some false => some i

/-- Loop body of next of parse.go, with fuel.  The source switch falls
through from the comment case into the increment, so after a comment skip
the position advances one extra byte unconditionally. -/
def nextF : Nat → List Nat → Nat → Bool → Option Nat
  | 0, _, i, _ => some i
  | f + 1, b, i, skipcom =>
    match b[i]? with
    | none => some i
    | some c =>
      if skipcom = true ∧ c = com then
        match skipComment b i with
        | none => none
        | some i2 => nextF f b (i2 + 1) skipcom
      else if isspace c = true then nextF f b (i + 1) skipcom
      else some i

/-- Translation of next of parse.go. -/
def next (b : List Nat) (i : Nat) (skipcom : Bool) : Option Nat :=
  nextF (b.length + 1) b i skipcom

/-- Loop body of the unquoted identifier scan of parseModName, with fuel.
The source loop stops at whitespace or at a comment start; iscomm can
crash at the last position. -/
def nameLoopF : Nat → List Nat → Nat → Option Nat
  | 0, _, i => some i
  | f + 1, b, i =>
    match b[i]? with
    | none => some i
    | some c =>
      if isspace c = true then some i
      else
        match iscomm b i with
        | none => none
        | some true => some i
        | some false => nameLoopF f b (i + 1)

/-- Unquoted identifier scan of parseModName of parse.go. -/
def nameLoop (b : List Nat) (i : Nat) : Option Nat := nameLoopF (b.length + 1) b i

/-- Translation of validVersion of pub.go. -/
def validVersion (b : List Nat) : Bool :=
  decide (4 < b.length) && isnum (b.headD 0) && isnum (b.getLastD 0) &&
    b.all (fun c => isnum c || c == dot)

/-- Translation of parseModName of parse.go.  Returns the identifier bytes
and the position right after it; none on the reads that crash in Go. -/
def parseModName (b : List Nat) (i0 : Nat) : Option (List Nat × Nat) :=
  match next b i0 false with
  | none => none
  | some p =>
    match b[p]? with
    | none => none
    | some c =>
      if c = aps ∨ c = qot then
        match b[search c b (p + 1) - 1]? with
        | none => none
        | some q =>
          if q = esc then
            match nameLoop b (search c b (p + 1)) with
            | none => none
            | some i2 => some (slice b p i2, i2)
          else some (slice b (p + 1) (search c b (p + 1)), search c b (p + 1) + 1)
      else
        match nameLoop b p with
        | none => none
        | some i2 => some (slice b p i2, i2)

/-- Translation of parseModVersion of parse.go.  Returns the version
bytes, the byte count from position i0 to the end of the version line
(zero when no valid version mark is present), and, as the source always
does, the unchanged position i0. -/
def parseModVersion (b : List Nat) (i0 : Nat) : Option (List Nat × Nat × Nat) :=
  match next b i0 false with
  | none => none
  | some p =>
    match b[p]? with
    | none => none
    | some c =>
      if c = com then
        if p + 3 ≤ b.length then
          if slice b p (p + 3) = preBytes then
            if validVersion (slice b (p + 3) (search lin b (p + 3))) = true then
              some (slice b (p + 3) (search lin b (p + 3)), search lin b (p + 3) - i0, i0)
            else some ([], 0, i0)
          else some ([], 0, i0)
        else none
      else some ([], 0, i0)

/-- Loop body of parseMod of parse.go, with fuel. -/
def parseModF : Nat → List Nat → Nat → Option (List Nat × List Nat × Nat × Nat)
  | 0, _, i => some ([], [], 0, i)
  | f + 1, b, i =>
    if i < b.length then
      match next b i true with
      | none => none
      | some j =>
        if b.length < j + 7 then some ([], [], 0, b.length)
        else
          if slice b j (j + 7) = modBytes then
            match parseModName b (j + 7) with
            | none => none
            | some (name, i2) =>
              match parseModVersion b i2 with
              | none => none
              | some (ver, vlen, i3) => some (name, ver, vlen, i3)
          else parseModF f b (j + 1)
    else some ([], [], 0, i)

/-- Translation of parseMod of parse.go: the Scanner.  Returns the module
name, the version, the length of the version mark range, and the offset
of that range; none on the inputs where the source crashes with an index
error. -/
def parseMod (b : List Nat) (i : Nat) : Option (List Nat × List Nat × Nat × Nat) :=
  parseModF (b.length + 1) b i

/-- Translation of updateModVersion of parse.go: the content of the buffer
the Splicer returns, built by the same append nesting as the source. -/
def updateModVersion (bytes : List Nat) (vpos vlen : Nat) (version : List Nat) : List Nat :=
  bytes.take vpos ++ ((([] ++ [spc]) ++ (preBytes ++ version)) ++ bytes.drop (vpos + vlen))

/-- Go append semantics of updateModVersion.  The source returns
append(bytes[:vpos], x...) where x is the spliced tail; Go's append
writes through the backing array of bytes whenever vpos + |x| fits in the
capacity cap of the input slice (cap is at least bytes.length).  The
first component is the content of the returned slice, the second is the
content visible through the input slice of length bytes.length after the
call. -/
def updateModVersionAlias (bytes : List Nat) (cap vpos vlen : Nat) (version : List Nat) :
    List Nat × List Nat :=
  if vpos + ((([] ++ [spc]) ++ (preBytes ++ version)) ++ bytes.drop (vpos + vlen)).length ≤
      cap then
    (bytes.take vpos ++ ((([] ++ [spc]) ++ (preBytes ++ version)) ++ bytes.drop (vpos + vlen)),
      ((bytes.take vpos ++
          ((([] ++ [spc]) ++ (preBytes ++ version)) ++ bytes.drop (vpos + vlen))) ++
        bytes.drop (vpos +
          ((([] ++ [spc]) ++ (preBytes ++ version)) ++
            bytes.drop (vpos + vlen)).length)).take bytes.length)
  else
    (bytes.take vpos ++ ((([] ++ [spc]) ++ (preBytes ++ version)) ++ bytes.drop (vpos + vlen)),
      bytes)

/-- Numeric value of a list of decimal digit bytes, most significant
first. -/
def natOfDigits (l : List Nat) : Nat := l.foldl (fun a c => 10 * a + (c - 48)) 0

/-- Decimal digit bytes of a natural number, with fuel. -/
def natDigitsF : Nat → Nat → List Nat
  | 0, _ => []
  | f + 1, n => if n < 10 then [48 + n] else natDigitsF f (n / 10) ++ [48 + n % 10]

/-- Decimal digit bytes of a natural number, most significant first. -/
def natDigits (n : Nat) : List Nat := natDigitsF (n + 1) n

/-- Magnitude part of strconv.Atoi: digits only, clamping at the 64-bit
int bounds with the error flag set, and error (with value 0) on an empty
or non-digit input. -/
def goAtoiMag (neg : Bool) (ds : List Nat) : Int × Bool :=
  if ds = [] then (0, true)
  else if ds.all isnum then
    if neg then
      if (natOfDigits ds : Int) ≤ 2 ^ 63 then (-(natOfDigits ds : Int), false)
      else (-(2 ^ 63), true)
    else
      if (natOfDigits ds : Int) ≤ 2 ^ 63 - 1 then ((natOfDigits ds : Int), false)
      else (2 ^ 63 - 1, true)
  else (0, true)

/-- Model of strconv.Atoi on a 64-bit platform: optional sign, decimal
digits, value clamped to the int64 range with the error flag set on
overflow; the error flag with value 0 on malformed input. -/
def goAtoi (s : List Nat) : Int × Bool :=
  if s.headD 0 = 43 then goAtoiMag false s.tail
  else if s.headD 0 = 45 then goAtoiMag true s.tail
  else goAtoiMag false s

/-- Two's-complement wrap of an Int into the int64 range, the effect of
Go addition on int. -/
def wrap64 (i : Int) : Int := (i + 2 ^ 63) % 2 ^ 64 - 2 ^ 63

/-- Model of strconv.Itoa. -/
def itoa (i : Int) : List Nat :=
  if i < 0 then 45 :: natDigits (-i).toNat else natDigits i.toNat

/-- Split of a byte list at a one-byte separator, the semantics of
strings.Split with a single-character separator; the empty list yields
one empty component. -/
def splitByte (d : Nat) : List Nat → List (List Nat)
  | [] => [[]]
  | c :: rest =>
    match splitByte d rest with
    | [] => [[]]
    | g :: gs => if c = d then [] :: g :: gs else (c :: g) :: gs

/-- Translation of nextVersion of pub.go: bump of the last dot-separated
component, via Atoi (error ignored) and wrapping int64 addition. -/
def nextVersion (cv : List Nat) : List Nat :=
  if cv = [] then strBytes ("0.0.0")
  else
    List.intercalate [dot]
      ((splitByte dot cv).dropLast ++
        [itoa (wrap64 ((goAtoi ((splitByte dot cv).getLastD [])).1 + 1))])

/-- Translation of the comparison loop of validUserVersion of pub.go over
the paired components: reject when a current component fails Atoi, accept
at the first strictly greater user component, reject at the first
strictly smaller one, reject when all pairs are equal. -/
def cmpParts : List (List Nat × List Nat) → Bool
  | [] => false
  | (c, u) :: rest =>
    if (goAtoi c).2 = true then false
    else if (goAtoi c).1 < (goAtoi u).1 then true
    else if (goAtoi u).1 < (goAtoi c).1 then false
    else cmpParts rest

/-- Translation of validUserVersion of pub.go. -/
def validUserVersion (current user : List Nat) : Bool :=
  if validVersion user = false then false
  else if current = [] then true
  else if current = user then true
  else
    if (splitByte dot current).length = (splitByte dot user).length then
      cmpParts ((splitByte dot current).zip (splitByte dot user))
    else false

/-- Translation of assessVersion of pub.go: the version decision step. -/
def assessVersion (cv uv : List Nat) : List Nat × Bool :=
  if uv = [] then (nextVersion cv, true)
  else if validUserVersion cv uv = false then ([], false)
  else (uv, true)

/-- Stop condition of the unquoted identifier loop: the loop halts on the
first byte of this list without crashing, because it is whitespace or the
start of a two-slash comment (or the list is empty and the loop exits by
the bounds test). -/
def nameStops : List Nat → Bool
  | [] => true
  | r :: rest =>
    isspace r ||
      (r == com &&
        match rest with
        | r2 :: _ => r2 == com
        | [] => false)

/-- Shape of a declaration identifier as the scanner reads it: either a
bare token (nonempty, no whitespace, no slash, not starting with a quote)
equal to the recovered name, or a quoted token whose inner content is the
recovered name, contains no unescaped closing quote early, and does not
end in the escape byte. -/
def IdentOK (ident name : List Nat) : Prop :=
  (ident = name ∧ name ≠ [] ∧ (∀ c ∈ name, isspace c = false ∧ c ≠ com) ∧
    name.head? ≠ some aps ∧ name.head? ≠ some qot) ∨
  (∃ q inner, (q = aps ∨ q = qot) ∧ ident = q :: (inner ++ [q]) ∧ name = inner ∧
    q ∉ inner ∧ inner.getLast? ≠ some esc)

/-- Whether the version step starting at position i0 finds a valid
version mark: after the whitespace skip there is a slash, the three bytes
there are the lead-in of preBytes, and the bytes up to the end of line
pass validVersion.  Mirrors the condition under which parseModVersion
records a version. -/
def hasVersionMark (b : List Nat) (i0 : Nat) : Bool :=
  match next b i0 false with
  | none => false
  | some p =>
    match b[p]? with
    | none => false
    | some c =>
      if c = com then
        if p + 3 ≤ b.length then
          if slice b p (p + 3) = preBytes then
            validVersion (slice b (p + 3) (search lin b (p + 3)))
          else false
        else false
      else false

/-- Version validity as the specification words it: one or more
dot-separated components, every component a nonempty run of ASCII digits,
total length at least five, first and last byte a digit. -/
def specVersionOk (b : List Nat) : Bool :=
  decide (1 ≤ (splitByte dot b).length) &&
    (splitByte dot b).all (fun c => !(c == []) && c.all isnum) &&
    decide (5 ≤ b.length) && isnum (b.headD 0) && isnum (b.getLastD 0)

example : parseMod (strBytes ("module x //v1.0.0\ngo 1.17")) 0 =
    some (strBytes ("x"), strBytes ("1.0.0"), 9, 8) := by decide

example :
    parseMod
      (strBytes
        ("// pub is a simple module for publishing go modules.\nmodule github.com/jcdotter/pub //v0.1.0\n\ngo 1.17"))
      0 =
    some (strBytes ("github.com/jcdotter/pub"), strBytes ("0.1.0"), 9, 83) := by decide

example : assessVersion [] [] = (strBytes ("0.0.0"), true) := by decide

example : assessVersion (strBytes ("0.1.0")) [] = (strBytes ("0.1.1"), true) := by decide

example : assessVersion (strBytes ("0.1.0")) (strBytes ("0.1.1")) = (strBytes ("0.1.1"), true) := by
  decide

example : assessVersion (strBytes ("0.1.0")) (strBytes ("v.1.1")) = ([], false) := by decide

example : assessVersion (strBytes ("0.1.0")) (strBytes ("0.0.9")) = ([], false) := by decide

theorem getSome_lt {b : List Nat} {i c : Nat} (h : b[i]? = some c) : i < b.length := by
  by_contra hh
  rw [List.getElem?_eq_none (by omega)] at h
  exact absurd h (by simp)

theorem get_append_add (A l : List Nat) (k : Nat) : (A ++ l)[A.length + k]? = l[k]? := by
  rw [List.getElem?_append_right (by omega), Nat.add_sub_cancel_left]

theorem get_append_head (A : List Nat) (c : Nat) (l : List Nat) :
    (A ++ c :: l)[A.length]? = some c := by
  simpa using get_append_add A (c :: l) 0

theorem slice_concat (A mid rest : List Nat) :
    slice (A ++ mid ++ rest) A.length (A.length + mid.length) = mid := by
  unfold slice
  rw [List.append_assoc, List.drop_left, Nat.add_sub_cancel_left, List.take_left]

theorem searchF_ge (x : Nat) (b : List Nat) : ∀ f i, i ≤ searchF f x b i := by
  intro f
  induction f with
  | zero => intro i; simp [searchF]
  | succ f ih =>
    intro i
    simp only [searchF]
    cases hb : b[i]? with
    | none => simp
    | some c =>
      by_cases hc : c = x
      · simp [hc]
      · simp only [if_neg hc]
        exact le_trans (by omega) (ih (i + 1))

theorem searchF_mono (x : Nat) (b : List Nat) :
    ∀ f₁ f₂ i, b.length - i < f₁ → b.length - i < f₂ →
      searchF f₁ x b i = searchF f₂ x b i := by
  intro f₁
  induction f₁ with
  | zero => intro f₂ i h₁ h₂; omega
  | succ f ih =>
    intro f₂ i h₁ h₂
    cases f₂ with
    | zero => omega
    | succ f₂ =>
      simp only [searchF]
      cases hb : b[i]? with
      | none => rfl
      | some c =>
        by_cases hc : c = x
        · simp [hc]
        · have hi : i < b.length := getSome_lt hb
          simp only [if_neg hc]
          exact ih f₂ (i + 1) (by omega) (by omega)

theorem search_eq (x : Nat) (b : List Nat) (i : Nat) :
    search x b i =
      match b[i]? with
      | none => i
      | some c => if c = x then i else search x b (i + 1) := by
  unfold search
  conv_lhs => simp only [searchF]
  cases hb : b[i]? with
  | none => rfl
  | some c =>
    by_cases hc : c = x
    · simp [hc]
    · have hi : i < b.length := getSome_lt hb
      simp only [if_neg hc]
      exact searchF_mono x b _ _ _ (by omega) (by omega)

theorem search_ge (x : Nat) (b : List Nat) (i : Nat) : i ≤ search x b i :=
  searchF_ge x b _ i

theorem search_concat (x : Nat) :
    ∀ (mid A rest : List Nat), x ∉ mid →
      search x (A ++ mid ++ x :: rest) A.length = A.length + mid.length := by
  intro mid
  induction mid with
  | nil =>
    intro A rest _
    rw [search_eq]
    have hg : (A ++ [] ++ x :: rest)[A.length]? = some x := by
      simpa using get_append_head A x rest
    rw [hg]
    simp
  | cons m ms ih =>
    intro A rest hx
    rw [search_eq]
    have hg : (A ++ m :: ms ++ x :: rest)[A.length]? = some m := by
      simpa using get_append_head A m (ms ++ x :: rest)
    simp only [hg]
    have hm : m ≠ x := fun h => hx (by simp [h])
    rw [if_neg hm]
    calc search x (A ++ m :: ms ++ x :: rest) (A.length + 1)
        = search x ((A ++ [m]) ++ ms ++ x :: rest) ((A ++ [m]).length) := by simp
      _ = (A ++ [m]).length + ms.length := ih (A ++ [m]) rest (fun h => hx (by simp [h]))
      _ = A.length + (m :: ms).length := by simp; omega

theorem skipComment_ge {b : List Nat} {i j : Nat} (h : skipComment b i = some j) : i ≤ j := by
  unfold skipComment at h
  cases hic : iscomm b i with
  | none => rw [hic] at h; exact absurd h (by simp)
  | some v =>
    rw [hic] at h
    cases v with
    | true =>
      simp only [Option.some.injEq] at h
      have := search_ge lin b (i + 2)
      omega
    | false => simp only [Option.some.injEq] at h; omega

theorem nextF_ge (b : List Nat) :
    ∀ f i sc j, nextF f b i sc = some j → i ≤ j := by
  intro f
  induction f with
  | zero => intro i sc j h; simp only [nextF, Option.some.injEq] at h; omega
  | succ f ih =>
    intro i sc j h
    simp only [nextF] at h
    cases hb : b[i]? with
    | none => rw [hb] at h; simp only [Option.some.injEq] at h; omega
    | some c =>
      rw [hb] at h
      dsimp only at h
      by_cases h1 : sc = true ∧ c = com
      · rw [if_pos h1] at h
        cases hsc : skipComment b i with
        | none => rw [hsc] at h; exact absurd h (by simp)
        | some i2 =>
          rw [hsc] at h
          dsimp only at h
          have := skipComment_ge hsc
          have := ih (i2 + 1) sc j h
          omega
      · rw [if_neg h1] at h
        by_cases h2 : isspace c = true
        · rw [if_pos h2] at h
          have := ih (i + 1) sc j h
          omega
        · rw [if_neg h2] at h; simp only [Option.some.injEq] at h; omega

theorem nextF_mono (b : List Nat) :
    ∀ f₁ f₂ i sc, b.length - i < f₁ → b.length - i < f₂ →
      nextF f₁ b i sc = nextF f₂ b i sc := by
  intro f₁
  induction f₁ with
  | zero => intro f₂ i sc h₁ h₂; omega
  | succ f ih =>
    intro f₂ i sc h₁ h₂
    cases f₂ with
    | zero => omega
    | succ f₂ =>
      simp only [nextF]
      cases hb : b[i]? with
      | none => rfl
      | some c =>
        have hi : i < b.length := getSome_lt hb
        dsimp only
        by_cases h1 : sc = true ∧ c = com
        · rw [if_pos h1, if_pos h1]
          cases hsc : skipComment b i with
          | none => rfl
          | some i2 =>
            dsimp only
            have hge := skipComment_ge hsc
            exact ih f₂ (i2 + 1) sc (by omega) (by omega)
        · rw [if_neg h1, if_neg h1]
          by_cases h2 : isspace c = true
          · rw [if_pos h2, if_pos h2]
            exact ih f₂ (i + 1) sc (by omega) (by omega)
          · rw [if_neg h2, if_neg h2]

theorem next_eq (b : List Nat) (i : Nat) (sc : Bool) :
    next b i sc =
      match b[i]? with
      | none => some i
      | some c =>
        if sc = true ∧ c = com then
          match skipComment b i with
          | none => none
          | some i2 => next b (i2 + 1) sc
        else if isspace c = true then next b (i + 1) sc
        else some i := by
  unfold next
  conv_lhs => simp only [nextF]
  cases hb : b[i]? with
  | none => rfl
  | some c =>
    have hi : i < b.length := getSome_lt hb
    dsimp only
    by_cases h1 : sc = true ∧ c = com
    · rw [if_pos h1, if_pos h1]
      cases hsc : skipComment b i with
      | none => rfl
      | some i2 =>
        dsimp only
        have hge := skipComment_ge hsc
        exact nextF_mono b _ _ (i2 + 1) sc (by omega) (by omega)
    · rw [if_neg h1, if_neg h1]
      by_cases h2 : isspace c = true
      · rw [if_pos h2, if_pos h2]
        exact nextF_mono b _ _ (i + 1) sc (by omega) (by omega)
      · rw [if_neg h2, if_neg h2]

theorem next_ge {b : List Nat} {i j : Nat} {sc : Bool} (h : next b i sc = some j) : i ≤ j :=
  nextF_ge b _ i sc j h

theorem next_stop {b : List Nat} {i c : Nat} {sc : Bool} (h1 : b[i]? = some c)
    (h2 : isspace c = false) (h3 : c ≠ com ∨ sc = false) : next b i sc = some i := by
  rw [next_eq]
  simp only [h1]
  have hno : ¬(sc = true ∧ c = com) := by
    rcases h3 with h | h
    · exact fun hh => h hh.2
    · exact fun hh => by rw [h] at hh; exact absurd hh.1 (by simp)
  rw [if_neg hno, if_neg (by simp [h2])]

theorem next_past {b : List Nat} {i : Nat} (h : b[i]? = none) (sc : Bool) :
    next b i sc = some i := by
  rw [next_eq, h]

theorem next_spaces :
    ∀ (W A rest : List Nat), (∀ c ∈ W, isspace c = true) →
      next (A ++ W ++ rest) A.length false =
        next (A ++ W ++ rest) (A.length + W.length) false := by
  intro W
  induction W with
  | nil => intro A rest _; simp
  | cons w ws ih =>
    intro A rest hW
    rw [next_eq]
    have hg : (A ++ w :: ws ++ rest)[A.length]? = some w := by
      simpa using get_append_head A w (ws ++ rest)
    simp only [hg]
    rw [if_neg (by simp), if_pos (hW w (by simp))]
    have step := ih (A ++ [w]) rest (fun c hc => hW c (by simp [hc]))
    have hL : (A ++ [w]) ++ ws ++ rest = A ++ w :: ws ++ rest := by simp
    have hn1 : (A ++ [w]).length = A.length + 1 := by simp
    rw [hL, hn1] at step
    rw [step]
    congr 1
    simp only [List.length_cons]
    omega

theorem iscomm_not_slash {b : List Nat} {i c : Nat} (h1 : b[i]? = some c) (h2 : c ≠ com) :
    iscomm b i = some false := by
  unfold iscomm
  rw [h1]
  dsimp only
  rw [if_neg h2]

theorem iscomm_slash {b : List Nat} {i c2 : Nat} (h1 : b[i]? = some com)
    (h2 : b[i + 1]? = some c2) : iscomm b i = some (decide (c2 = com)) := by
  unfold iscomm
  rw [h1]
  dsimp only
  rw [if_pos rfl, h2]

theorem nameLoopF_mono (b : List Nat) :
    ∀ f₁ f₂ i, b.length - i < f₁ → b.length - i < f₂ →
      nameLoopF f₁ b i = nameLoopF f₂ b i := by
  intro f₁
  induction f₁ with
  | zero => intro f₂ i h₁ h₂; omega
  | succ f ih =>
    intro f₂ i h₁ h₂
    cases f₂ with
    | zero => omega
    | succ f₂ =>
      simp only [nameLoopF]
      cases hb : b[i]? with
      | none => rfl
      | some c =>
        have hi : i < b.length := getSome_lt hb
        dsimp only
        by_cases h2 : isspace c = true
        · rw [if_pos h2, if_pos h2]
        · rw [if_neg h2, if_neg h2]
          cases hic : iscomm b i with
          | none => rfl
          | some v =>
            cases v with
            | true => rfl
            | false =>
              dsimp only
              exact ih f₂ (i + 1) (by omega) (by omega)

theorem nameLoop_eq (b : List Nat) (i : Nat) :
    nameLoop b i =
      match b[i]? with
      | none => some i
      | some c =>
        if isspace c = true then some i
        else
          match iscomm b i with
          | none => none
          | some true => some i
          | some false => nameLoop b (i + 1) := by
  unfold nameLoop
  conv_lhs => simp only [nameLoopF]
  cases hb : b[i]? with
  | none => rfl
  | some c =>
    have hi : i < b.length := getSome_lt hb
    dsimp only
    by_cases h2 : isspace c = true
    · rw [if_pos h2, if_pos h2]
    · rw [if_neg h2, if_neg h2]
      cases hic : iscomm b i with
      | none => rfl
      | some v =>
        cases v with
        | true => rfl
        | false =>
          dsimp only
          exact nameLoopF_mono b _ _ (i + 1) (by omega) (by omega)

theorem nameLoop_concat :
    ∀ (mid A rest : List Nat), (∀ c ∈ mid, isspace c = false ∧ c ≠ com) →
      nameStops rest = true →
      nameLoop (A ++ mid ++ rest) A.length = some (A.length + mid.length) := by
  intro mid
  induction mid with
  | nil =>
    intro A rest _ hstop
    rw [nameLoop_eq]
    cases rest with
    | nil =>
      have hg : (A ++ [] ++ ([] : List Nat))[A.length]? = none := by
        rw [List.getElem?_eq_none (by simp)]
      rw [hg]
      simp
    | cons r rest' =>
      have hg : (A ++ [] ++ r :: rest')[A.length]? = some r := by
        simpa using get_append_head A r rest'
      rw [hg]
      dsimp only
      by_cases hr : isspace r = true
      · rw [if_pos hr]; simp
      · rw [if_neg hr]
        unfold nameStops at hstop
        rw [Bool.or_eq_true] at hstop
        rcases hstop with hs | hcc
        · exact absurd hs hr
        · rw [Bool.and_eq_true] at hcc
          have hr2 : ∃ r2 rest'', rest' = r2 :: rest'' ∧ r2 = com := by
            cases rest' with
            | nil => exact absurd hcc.2 (by simp)
            | cons r2 rest'' =>
              refine ⟨r2, rest'', rfl, ?_⟩
              have := hcc.2
              simpa using this
          obtain ⟨r2, rest'', hre, hr2c⟩ := hr2
          have hrc : r = com := by simpa using hcc.1
          subst hre hrc hr2c
          have hg2 : (A ++ [] ++ com :: com :: rest'')[A.length + 1]? = some com := by
            have := get_append_add A (com :: com :: rest'') 1
            simpa using this
          rw [iscomm_slash (by simpa using hg) hg2]
          simp
  | cons m ms ih =>
    intro A rest hmid hstop
    rw [nameLoop_eq]
    have hg : (A ++ m :: ms ++ rest)[A.length]? = some m := by
      simpa using get_append_head A m (ms ++ rest)
    rw [hg]
    dsimp only
    have hm := hmid m (by simp)
    rw [if_neg (by simp [hm.1])]
    rw [iscomm_not_slash hg hm.2]
    dsimp only
    have step := ih (A ++ [m]) rest (fun c hc => hmid c (by simp [hc])) hstop
    have hL : (A ++ [m]) ++ ms ++ rest = A ++ m :: ms ++ rest := by simp
    have hn1 : (A ++ [m]).length = A.length + 1 := by simp
    rw [hL, hn1] at step
    rw [step]
    have harith : A.length + 1 + ms.length = A.length + (m :: ms).length := by
      simp only [List.length_cons]
      omega
    rw [harith]

theorem parseModF_mono (b : List Nat) :
    ∀ f₁ f₂ i, b.length - i < f₁ → b.length - i < f₂ →
      parseModF f₁ b i = parseModF f₂ b i := by
  intro f₁
  induction f₁ with
  | zero => intro f₂ i h₁ h₂; omega
  | succ f ih =>
    intro f₂ i h₁ h₂
    cases f₂ with
    | zero => omega
    | succ f₂ =>
      simp only [parseModF]
      by_cases hi : i < b.length
      · rw [if_pos hi, if_pos hi]
        cases hn : next b i true with
        | none => rfl
        | some j =>
          dsimp only
          have hj := next_ge hn
          by_cases h7 : b.length < j + 7
          · rw [if_pos h7, if_pos h7]
          · rw [if_neg h7, if_neg h7]
            by_cases hm : slice b j (j + 7) = modBytes
            · rw [if_pos hm, if_pos hm]
            · rw [if_neg hm, if_neg hm]
              exact ih f₂ (j + 1) (by omega) (by omega)
      · rw [if_neg hi, if_neg hi]

theorem parseMod_eq (b : List Nat) (i : Nat) :
    parseMod b i =
      if i < b.length then
        match next b i true with
        | none => none
        | some j =>
          if b.length < j + 7 then some ([], [], 0, b.length)
          else
            if slice b j (j + 7) = modBytes then
              match parseModName b (j + 7) with
              | none => none
              | some (name, i2) =>
                match parseModVersion b i2 with
                | none => none
                | some (ver, vlen, i3) => some (name, ver, vlen, i3)
            else parseMod b (j + 1)
      else some ([], [], 0, i) := by
  unfold parseMod
  conv_lhs => simp only [parseModF]
  by_cases hi : i < b.length
  · rw [if_pos hi, if_pos hi]
    cases hn : next b i true with
    | none => rfl
    | some j =>
      dsimp only
      have hj := next_ge hn
      by_cases h7 : b.length < j + 7
      · rw [if_pos h7, if_pos h7]
      · rw [if_neg h7, if_neg h7]
        by_cases hm : slice b j (j + 7) = modBytes
        · rw [if_pos hm, if_pos hm]
        · rw [if_neg hm, if_neg hm]
          exact parseModF_mono b _ _ (j + 1) (by omega) (by omega)
  · rw [if_neg hi, if_neg hi]

theorem validVersion_mem {ver : List Nat} (hv : validVersion ver = true) :
    ∀ c ∈ ver, isnum c = true ∨ c = dot := by
  intro c hc
  unfold validVersion at hv
  simp only [Bool.and_eq_true, List.all_eq_true] at hv
  have h2 := hv.2 c hc
  simp only [Bool.or_eq_true, beq_iff_eq] at h2
  exact h2

theorem validVersion_no_lin {ver : List Nat} (hv : validVersion ver = true) : lin ∉ ver := by
  intro hmem
  rcases validVersion_mem hv lin hmem with h | h
  · exact absurd h (by decide)
  · exact absurd h (by decide)

theorem validVersion_len {ver : List Nat} (hv : validVersion ver = true) : 4 < ver.length := by
  unfold validVersion at hv
  simp only [Bool.and_eq_true, decide_eq_true_eq] at hv
  exact hv.1.1.1

theorem parseModName_wf (A ident name rest : List Nat) (hid : IdentOK ident name)
    (hstop : nameStops rest = true) :
    parseModName (A ++ ident ++ rest) A.length = some (name, A.length + ident.length) := by
  rcases hid with ⟨hin, hne, hmem, hna, hnq⟩ | ⟨q, innr, hq, hiq, hnm, hqni, hle⟩
  · subst hin
    obtain ⟨n0, name', rfl⟩ : ∃ n0 name', ident = n0 :: name' := by
      cases ident with
      | nil => exact absurd rfl hne
      | cons a l => exact ⟨a, l, rfl⟩
    have hg : (A ++ n0 :: name' ++ rest)[A.length]? = some n0 := by
      simpa using get_append_head A n0 (name' ++ rest)
    have h0 := hmem n0 (by simp)
    unfold parseModName
    rw [next_stop hg h0.1 (Or.inr rfl)]
    dsimp only
    rw [hg]
    dsimp only
    have hnotq : ¬(n0 = aps ∨ n0 = qot) := by
      rintro (h | h)
      · exact hna (by simp [h])
      · exact hnq (by simp [h])
    rw [if_neg hnotq]
    rw [nameLoop_concat (n0 :: name') A rest hmem hstop]
    dsimp only
    rw [slice_concat]
  · subst hiq hnm
    have hqs : isspace q = false := by
      rcases hq with rfl | rfl <;> decide
    have hqe : q ≠ esc := by
      rcases hq with rfl | rfl <;> decide
    have hqaq : q = aps ∨ q = qot := hq
    have hg : (A ++ (q :: (name ++ [q])) ++ rest)[A.length]? = some q := by
      simpa using get_append_head A q ((name ++ [q]) ++ rest)
    have hassoc : A ++ (q :: (name ++ [q])) ++ rest = (A ++ [q]) ++ name ++ (q :: rest) := by
      simp
    have hsearch : search q (A ++ (q :: (name ++ [q])) ++ rest) (A.length + 1) =
        A.length + 1 + name.length := by
      rw [hassoc]
      have := search_concat q name (A ++ [q]) rest hqni
      simpa using this
    unfold parseModName
    rw [next_stop hg hqs (Or.inr rfl)]
    dsimp only
    rw [hg]
    dsimp only
    rw [if_pos hqaq, hsearch]
    have hp : (A ++ (q :: (name ++ [q])) ++ rest)[A.length + 1 + name.length - 1]? =
        some (name.getLastD q) := by
      rcases List.eq_nil_or_concat name with rfl | ⟨init, lst, rfl⟩
      · simpa using hg
      · simp only [List.concat_eq_append]
        have hrw : A ++ (q :: ((init ++ [lst]) ++ [q])) ++ rest =
            ((A ++ [q]) ++ init) ++ lst :: ([q] ++ rest) := by simp
        rw [hrw]
        have hpos : A.length + 1 + (init ++ [lst]).length - 1 = ((A ++ [q]) ++ init).length := by
          simp
          omega
        rw [hpos, get_append_head, List.getLastD_concat]
    rw [hp]
    dsimp only
    have hpe : name.getLastD q ≠ esc := by
      rcases List.eq_nil_or_concat name with rfl | ⟨init, lst, rfl⟩
      · simpa using hqe
      · simp only [List.concat_eq_append] at hle ⊢
        rw [List.getLastD_concat]
        intro hcon
        exact hle (by rw [List.getLast?_concat, hcon])
    rw [if_neg hpe]
    have hslice : slice (A ++ (q :: (name ++ [q])) ++ rest) (A.length + 1)
        (A.length + 1 + name.length) = name := by
      rw [hassoc]
      have := slice_concat (A ++ [q]) name (q :: rest)
      simpa using this
    rw [hslice]
    have harith : A.length + 1 + name.length + 1 = A.length + (q :: (name ++ [q])).length := by
      simp
      omega
    rw [harith]

theorem preBytes_len : preBytes.length = 3 := rfl

theorem get_eq_of {b : List Nat} (A : List Nat) (c : Nat) (l : List Nat) {i : Nat}
    (hb : b = A ++ c :: l) (hi : i = A.length) : b[i]? = some c := by
  subst hb hi
  exact get_append_head A c l

theorem slice_eq_of {b : List Nat} (A mid rest : List Nat) {s e : Nat}
    (hb : b = A ++ mid ++ rest) (hs : s = A.length) (he : e = A.length + mid.length) :
    slice b s e = mid := by
  subst hb hs he
  exact slice_concat A mid rest

theorem search_eq_of {x : Nat} {b : List Nat} (A mid rest : List Nat) {i r : Nat}
    (hx : x ∉ mid) (hb : b = A ++ mid ++ x :: rest) (hi : i = A.length)
    (hr : r = A.length + mid.length) : search x b i = r := by
  subst hb hi hr
  exact search_concat x mid A rest hx

theorem parseModVersion_found (A W ver rest : List Nat) (hW : ∀ c ∈ W, isspace c = true)
    (hv : validVersion ver = true) :
    parseModVersion (A ++ W ++ (preBytes ++ (ver ++ lin :: rest))) A.length =
      some (ver, W.length + 3 + ver.length, A.length) := by
  have hg : (A ++ W ++ (preBytes ++ (ver ++ lin :: rest)))[A.length + W.length]? = some com :=
    get_eq_of (A ++ W) com (com :: 118 :: (ver ++ lin :: rest)) (by simp [preBytes, com])
      (by simp)
  have hnext : next (A ++ W ++ (preBytes ++ (ver ++ lin :: rest))) A.length false =
      some (A.length + W.length) := by
    rw [next_spaces W A (preBytes ++ (ver ++ lin :: rest)) hW]
    exact next_stop hg (by decide) (Or.inr rfl)
  have hsl3 : slice (A ++ W ++ (preBytes ++ (ver ++ lin :: rest))) (A.length + W.length)
      (A.length + W.length + 3) = preBytes :=
    slice_eq_of (A ++ W) preBytes (ver ++ lin :: rest) (by simp) (by simp)
      (by simp [preBytes_len])
  have hsr : search lin (A ++ W ++ (preBytes ++ (ver ++ lin :: rest)))
      (A.length + W.length + 3) = A.length + W.length + 3 + ver.length :=
    search_eq_of ((A ++ W) ++ preBytes) ver rest (validVersion_no_lin hv) (by simp)
      (by simp [preBytes_len]; omega) (by simp [preBytes_len]; omega)
  have hslv : slice (A ++ W ++ (preBytes ++ (ver ++ lin :: rest))) (A.length + W.length + 3)
      (A.length + W.length + 3 + ver.length) = ver :=
    slice_eq_of ((A ++ W) ++ preBytes) ver (lin :: rest) (by simp)
      (by simp [preBytes_len]; omega) (by simp [preBytes_len]; omega)
  unfold parseModVersion
  rw [hnext]
  dsimp only
  rw [hg]
  dsimp only
  rw [if_pos rfl]
  rw [if_pos (by simp only [List.length_append, List.length_cons, preBytes_len]; omega)]
  rw [hsl3, if_pos rfl, hsr, hslv, if_pos hv]
  have harith : A.length + W.length + 3 + ver.length - A.length = W.length + 3 + ver.length := by
    omega
  rw [harith]

theorem parseModVersion_absent (A W : List Nat) (c : Nat) (rest : List Nat)
    (hW : ∀ x ∈ W, isspace x = true) (hc1 : isspace c = false) (hc2 : c ≠ com) :
    parseModVersion (A ++ W ++ (c :: rest)) A.length = some ([], 0, A.length) := by
  have hg : (A ++ W ++ (c :: rest))[A.length + W.length]? = some c :=
    get_eq_of (A ++ W) c rest (by simp) (by simp)
  have hnext : next (A ++ W ++ (c :: rest)) A.length false = some (A.length + W.length) := by
    rw [next_spaces W A (c :: rest) hW]
    exact next_stop hg hc1 (Or.inr rfl)
  unfold parseModVersion
  rw [hnext]
  dsimp only
  rw [hg]
  dsimp only
  rw [if_neg hc2]

theorem parseModVersion_badver (A W bad rest : List Nat) (hW : ∀ c ∈ W, isspace c = true)
    (hlin : lin ∉ bad) (hbad : validVersion bad = false) :
    parseModVersion (A ++ W ++ (preBytes ++ (bad ++ lin :: rest))) A.length =
      some ([], 0, A.length) := by
  have hg : (A ++ W ++ (preBytes ++ (bad ++ lin :: rest)))[A.length + W.length]? = some com :=
    get_eq_of (A ++ W) com (com :: 118 :: (bad ++ lin :: rest)) (by simp [preBytes, com])
      (by simp)
  have hnext : next (A ++ W ++ (preBytes ++ (bad ++ lin :: rest))) A.length false =
      some (A.length + W.length) := by
    rw [next_spaces W A (preBytes ++ (bad ++ lin :: rest)) hW]
    exact next_stop hg (by decide) (Or.inr rfl)
  have hsl3 : slice (A ++ W ++ (preBytes ++ (bad ++ lin :: rest))) (A.length + W.length)
      (A.length + W.length + 3) = preBytes :=
    slice_eq_of (A ++ W) preBytes (bad ++ lin :: rest) (by simp) (by simp)
      (by simp [preBytes_len])
  have hsr : search lin (A ++ W ++ (preBytes ++ (bad ++ lin :: rest)))
      (A.length + W.length + 3) = A.length + W.length + 3 + bad.length :=
    search_eq_of ((A ++ W) ++ preBytes) bad rest hlin (by simp)
      (by simp [preBytes_len]; omega) (by simp [preBytes_len]; omega)
  have hslv : slice (A ++ W ++ (preBytes ++ (bad ++ lin :: rest))) (A.length + W.length + 3)
      (A.length + W.length + 3 + bad.length) = bad :=
    slice_eq_of ((A ++ W) ++ preBytes) bad (lin :: rest) (by simp)
      (by simp [preBytes_len]; omega) (by simp [preBytes_len]; omega)
  unfold parseModVersion
  rw [hnext]
  dsimp only
  rw [hg]
  dsimp only
  rw [if_pos rfl]
  rw [if_pos (by simp only [List.length_append, List.length_cons, preBytes_len]; omega)]
  rw [hsl3, if_pos rfl, hsr, hslv, if_neg (by simp [hbad])]

theorem parseMod_decl (ident name tail : List Nat) (hid : IdentOK ident name)
    (hstop : nameStops tail = true) :
    parseMod (modBytes ++ ident ++ tail) 0 =
      match parseModVersion (modBytes ++ ident ++ tail) (7 + ident.length) with
      | none => none
      | some (ver, vlen, i3) => some (name, ver, vlen, i3) := by
  have hlen : 7 ≤ (modBytes ++ ident ++ tail).length := by
    simp [modBytes]
  have hg0 : (modBytes ++ ident ++ tail)[0]? = some 109 := by
    simp [modBytes]
  have hnext : next (modBytes ++ ident ++ tail) 0 true = some 0 :=
    next_stop hg0 (by decide) (Or.inl (by decide))
  have hsl : slice (modBytes ++ ident ++ tail) 0 (0 + 7) = modBytes := by
    have h0 := slice_concat [] modBytes (ident ++ tail)
    simpa using h0
  have hname : parseModName (modBytes ++ ident ++ tail) (0 + 7) = some (name, 7 + ident.length) := by
    have h0 := parseModName_wf modBytes ident name tail hid hstop
    have h7 : modBytes.length = 7 := rfl
    rw [h7] at h0
    simpa [Nat.add_comm] using h0
  rw [parseMod_eq]
  rw [if_pos (by omega), hnext]
  dsimp only
  rw [if_neg (by omega), if_pos hsl, hname]

theorem modBytes_len : modBytes.length = 7 := rfl

theorem parseModVersion_found_of (A W ver rest : List Nat) {b : List Nat} {i : Nat}
    (hW : ∀ c ∈ W, isspace c = true) (hv : validVersion ver = true)
    (hb : b = A ++ W ++ (preBytes ++ (ver ++ lin :: rest))) (hi : i = A.length) :
    parseModVersion b i = some (ver, W.length + 3 + ver.length, i) := by
  subst hb hi
  exact parseModVersion_found A W ver rest hW hv

theorem parseModVersion_absent_of (A W : List Nat) (c : Nat) (rest : List Nat) {b : List Nat}
    {i : Nat} (hW : ∀ x ∈ W, isspace x = true) (hc1 : isspace c = false) (hc2 : c ≠ com)
    (hb : b = A ++ W ++ (c :: rest)) (hi : i = A.length) :
    parseModVersion b i = some ([], 0, i) := by
  subst hb hi
  exact parseModVersion_absent A W c rest hW hc1 hc2

theorem nameStops_space {w : Nat} (ws : List Nat) (hw : isspace w = true) :
    nameStops (w :: ws) = true := by
  simp [nameStops, hw]

theorem nameStops_tail (W X ver rest : List Nat) (hW : ∀ c ∈ W, isspace c = true)
    (hX : X = W ++ (preBytes ++ (ver ++ lin :: rest))) : nameStops X = true := by
  subst hX
  cases W with
  | nil => simp [nameStops, preBytes, isspace, com]
  | cons w ws =>
    have hw := hW w (by simp)
    simpa using nameStops_space (ws ++ (preBytes ++ (ver ++ lin :: rest))) hw

theorem scan_family (ident name W ver rest : List Nat) (hid : IdentOK ident name)
    (hW : ∀ c ∈ W, isspace c = true) (hv : validVersion ver = true) :
    parseMod (modBytes ++ ident ++ (W ++ (preBytes ++ (ver ++ lin :: rest)))) 0 =
      some (name, ver, W.length + 3 + ver.length, 7 + ident.length) := by
  rw [parseMod_decl ident name (W ++ (preBytes ++ (ver ++ lin :: rest))) hid
    (nameStops_tail W _ ver rest hW rfl)]
  rw [parseModVersion_found_of (modBytes ++ ident) W ver rest hW hv (by simp)
    (by simp [modBytes_len])]

theorem update_family (ident W ver rest v : List Nat) :
    updateModVersion (modBytes ++ ident ++ (W ++ (preBytes ++ (ver ++ lin :: rest))))
      (7 + ident.length) (W.length + 3 + ver.length) v =
    modBytes ++ ident ++ ([spc] ++ (preBytes ++ (v ++ lin :: rest))) := by
  unfold updateModVersion
  have htake : (modBytes ++ ident ++ (W ++ (preBytes ++ (ver ++ lin :: rest)))).take
      (7 + ident.length) = modBytes ++ ident := by
    have h1 : 7 + ident.length = (modBytes ++ ident).length := by simp [modBytes_len]
    rw [h1, List.take_left]
  have hdrop : (modBytes ++ ident ++ (W ++ (preBytes ++ (ver ++ lin :: rest)))).drop
      (7 + ident.length + (W.length + 3 + ver.length)) = lin :: rest := by
    have h2 : modBytes ++ ident ++ (W ++ (preBytes ++ (ver ++ lin :: rest))) =
        (modBytes ++ ident ++ W ++ preBytes ++ ver) ++ (lin :: rest) := by simp
    have h3 : 7 + ident.length + (W.length + 3 + ver.length) =
        (modBytes ++ ident ++ W ++ preBytes ++ ver).length := by
      simp only [List.length_append, modBytes_len, preBytes_len]
      omega
    rw [h2, h3, List.drop_left]
  rw [htake, hdrop]
  simp

theorem scan_single_space (ident name ver rest : List Nat) (hid : IdentOK ident name)
    (hv : validVersion ver = true) :
    parseMod (modBytes ++ ident ++ ([spc] ++ (preBytes ++ (ver ++ lin :: rest)))) 0 =
      some (name, ver, 4 + ver.length, 7 + ident.length) := by
  have h0 := scan_family ident name [spc] ver rest hid (by simp [isspace, spc]) hv
  simpa using h0

theorem update_single_space (ident ver rest v : List Nat) :
    updateModVersion (modBytes ++ ident ++ ([spc] ++ (preBytes ++ (ver ++ lin :: rest))))
      (7 + ident.length) (4 + ver.length) v =
    modBytes ++ ident ++ ([spc] ++ (preBytes ++ (v ++ lin :: rest))) := by
  have h0 := update_family ident [spc] ver rest v
  simpa using h0

/-- C1: the claim says the Scanner never raises an error on any buffer.
The code disagrees: parseMod reads past the end of the buffer and crashes
with an index-out-of-range error (modeled as none) on buffers that end
right after the keyword, right after or inside the identifier, in
trailing whitespace, after an unterminated quote, inside a version
lead-in, or after a lone slash. -/
theorem c1_scanner_crash :
    parseMod (strBytes ("module ")) 0 = none ∧
    parseMod (strBytes ("module x")) 0 = none ∧
    parseMod (strBytes ("module x ")) 0 = none ∧
    parseMod (strBytes ("module \"a")) 0 = none ∧
    parseMod (strBytes ("module x//")) 0 = none ∧
    parseMod (strBytes ("/")) 0 = none := by
  refine ⟨?_, ?_, ?_, ?_, ?_, ?_⟩ <;> decide

/-- C3: on a buffer that is a well-formed declaration line, keyword then
identifier (bare, or quoted with the full quoted content recovered even
when it holds internal whitespace) then one space then a //v mark with a
valid version then end of line, the scanner returns exactly that
identifier and version, the reported range spans exactly the separating
space plus the //v mark to the end of the line, and splicing the same
version back in over that range reproduces the buffer byte for byte. -/
theorem c3_wellformed_line (ident name ver rest : List Nat) (hid : IdentOK ident name)
    (hv : validVersion ver = true) :
    parseMod (modBytes ++ ident ++ ([spc] ++ (preBytes ++ (ver ++ lin :: rest)))) 0 =
      some (name, ver, 4 + ver.length, 7 + ident.length) ∧
    slice (modBytes ++ ident ++ ([spc] ++ (preBytes ++ (ver ++ lin :: rest))))
        (7 + ident.length) (7 + ident.length + (4 + ver.length)) = [spc] ++ preBytes ++ ver ∧
    updateModVersion (modBytes ++ ident ++ ([spc] ++ (preBytes ++ (ver ++ lin :: rest))))
        (7 + ident.length) (4 + ver.length) ver =
      modBytes ++ ident ++ ([spc] ++ (preBytes ++ (ver ++ lin :: rest))) := by
  refine ⟨scan_single_space ident name ver rest hid hv, ?_, update_single_space ident ver rest ver⟩
  refine slice_eq_of (modBytes ++ ident) ([spc] ++ preBytes ++ ver) (lin :: rest) (by simp)
    (by simp [modBytes_len]) ?_
  simp only [List.length_append, modBytes_len, preBytes_len, List.length_cons,
    List.length_nil]

theorem c3_witness :
    IdentOK (qot :: (strBytes ("my mod") ++ [qot])) (strBytes ("my mod")) ∧
    validVersion (strBytes ("1.0.0")) = true ∧
    (parseMod
        (modBytes ++ (qot :: (strBytes ("my mod") ++ [qot])) ++
          ([spc] ++ (preBytes ++ (strBytes ("1.0.0") ++ lin :: strBytes ("go 1.17"))))) 0 =
      some (strBytes ("my mod"), strBytes ("1.0.0"), 9, 15) ∧
    slice
        (modBytes ++ (qot :: (strBytes ("my mod") ++ [qot])) ++
          ([spc] ++ (preBytes ++ (strBytes ("1.0.0") ++ lin :: strBytes ("go 1.17")))))
        15 24 = [spc] ++ preBytes ++ strBytes ("1.0.0") ∧
    updateModVersion
        (modBytes ++ (qot :: (strBytes ("my mod") ++ [qot])) ++
          ([spc] ++ (preBytes ++ (strBytes ("1.0.0") ++ lin :: strBytes ("go 1.17")))))
        15 9 (strBytes ("1.0.0")) =
      modBytes ++ (qot :: (strBytes ("my mod") ++ [qot])) ++
        ([spc] ++ (preBytes ++ (strBytes ("1.0.0") ++ lin :: strBytes ("go 1.17"))))) :=
  ⟨Or.inr ⟨qot, strBytes ("my mod"), Or.inr rfl, rfl, rfl, by decide, by decide⟩, by decide,
    c3_wellformed_line (qot :: (strBytes ("my mod") ++ [qot])) (strBytes ("my mod"))
      (strBytes ("1.0.0")) (strBytes ("go 1.17"))
      (Or.inr ⟨qot, strBytes ("my mod"), Or.inr rfl, rfl, rfl, by decide, by decide⟩)
      (by decide)⟩

/-- C10: the whitespace skipped between the identifier and the //v mark
includes newlines: when the first non-whitespace bytes after the
identifier form a valid //v mark on a later line, the scanner still
reports that version, with the offset immediately after the identifier
and the length spanning across the intervening whitespace (newlines
included) to the end of the mark's line, and a subsequent update joins
those lines into one line separated by a single space. -/
theorem c10_newline_skip (ident name W ver rest v2 : List Nat) (hid : IdentOK ident name)
    (hW : ∀ c ∈ W, isspace c = true) (_hlin : lin ∈ W) (hv : validVersion ver = true) :
    parseMod (modBytes ++ ident ++ (W ++ (preBytes ++ (ver ++ lin :: rest)))) 0 =
      some (name, ver, W.length + 3 + ver.length, 7 + ident.length) ∧
    updateModVersion (modBytes ++ ident ++ (W ++ (preBytes ++ (ver ++ lin :: rest))))
        (7 + ident.length) (W.length + 3 + ver.length) v2 =
      modBytes ++ ident ++ ([spc] ++ (preBytes ++ (v2 ++ lin :: rest))) :=
  ⟨scan_family ident name W ver rest hid hW hv, update_family ident W ver rest v2⟩

theorem c10_witness :
    IdentOK (strBytes ("foo")) (strBytes ("foo")) ∧
    (∀ c ∈ [lin], isspace c = true) ∧ lin ∈ [lin] ∧
    validVersion (strBytes ("1.2.3")) = true ∧
    (parseMod (modBytes ++ strBytes ("foo") ++
        ([lin] ++ (preBytes ++ (strBytes ("1.2.3") ++ lin :: strBytes ("go"))))) 0 =
      some (strBytes ("foo"), strBytes ("1.2.3"), 9, 10) ∧
    updateModVersion (modBytes ++ strBytes ("foo") ++
        ([lin] ++ (preBytes ++ (strBytes ("1.2.3") ++ lin :: strBytes ("go")))))
        10 9 (strBytes ("9.9.9")) =
      modBytes ++ strBytes ("foo") ++
        ([spc] ++ (preBytes ++ (strBytes ("9.9.9") ++ lin :: strBytes ("go"))))) :=
  ⟨Or.inl ⟨rfl, by decide, by decide, by decide, by decide⟩, by decide, by decide, by decide,
    c10_newline_skip (strBytes ("foo")) (strBytes ("foo")) [lin] (strBytes ("1.2.3"))
      (strBytes ("go")) (strBytes ("9.9.9"))
      (Or.inl ⟨rfl, by decide, by decide, by decide, by decide⟩) (by decide) (by decide)
      (by decide)⟩

/-- C4 as stated is false: on the buffer "module x y\n" the scan succeeds
with offset 8 and length 0, yet update with version 1.0.0 followed by a
rescan of the result yields an empty version, not 1.0.0, because the
inserted mark is followed on the same line by the old trailing content,
which invalidates the version substring. -/
theorem c4_cx :
    parseMod (strBytes ("module x y\n")) 0 = some (strBytes ("x"), [], 0, 8) ∧
    updateModVersion (strBytes ("module x y\n")) 8 0 (strBytes ("1.0.0")) =
      strBytes ("module x //v1.0.0 y\n") ∧
    parseMod (strBytes ("module x //v1.0.0 y\n")) 0 = some (strBytes ("x"), [], 0, 8) ∧
    ([] : List Nat) ≠ strBytes ("1.0.0") := by
  refine ⟨?_, ?_, ?_, ?_⟩ <;> decide

/-- C4 amended: on every buffer whose scan succeeds with a version mark
found (a well-formed declaration line, identifier bare or quoted,
whitespace then a valid //v mark ending the line), update with any
syntactically valid version v followed by scan on the result returns v
with an offset and length spanning exactly the newly written mark, and
applying update again with the same v and the rescanned offsets yields a
byte-identical buffer. -/
theorem c4_roundtrip (ident name W ver rest v B B1 : List Nat) (hid : IdentOK ident name)
    (hW : ∀ c ∈ W, isspace c = true) (hver : validVersion ver = true)
    (hv : validVersion v = true)
    (hB : B = modBytes ++ ident ++ (W ++ (preBytes ++ (ver ++ lin :: rest))))
    (hB1 : B1 = updateModVersion B (7 + ident.length) (W.length + 3 + ver.length) v) :
    parseMod B 0 = some (name, ver, W.length + 3 + ver.length, 7 + ident.length) ∧
    parseMod B1 0 = some (name, v, 4 + v.length, 7 + ident.length) ∧
    updateModVersion B1 (7 + ident.length) (4 + v.length) v = B1 := by
  subst hB
  subst hB1
  refine ⟨scan_family ident name W ver rest hid hW hver, ?_, ?_⟩
  · rw [update_family ident W ver rest v]
    exact scan_single_space ident name v rest hid hv
  · rw [update_family ident W ver rest v]
    exact update_single_space ident v rest v

theorem c4_witness :
    IdentOK (strBytes ("x")) (strBytes ("x")) ∧
    (∀ c ∈ [spc], isspace c = true) ∧
    validVersion (strBytes ("1.0.0")) = true ∧
    validVersion (strBytes ("2.0.0")) = true ∧
    (parseMod (modBytes ++ strBytes ("x") ++
        ([spc] ++ (preBytes ++ (strBytes ("1.0.0") ++ lin :: strBytes ("go 1.17"))))) 0 =
      some (strBytes ("x"), strBytes ("1.0.0"), 9, 8) ∧
    parseMod (updateModVersion (modBytes ++ strBytes ("x") ++
        ([spc] ++ (preBytes ++ (strBytes ("1.0.0") ++ lin :: strBytes ("go 1.17")))))
        8 9 (strBytes ("2.0.0"))) 0 =
      some (strBytes ("x"), strBytes ("2.0.0"), 9, 8) ∧
    updateModVersion (updateModVersion (modBytes ++ strBytes ("x") ++
        ([spc] ++ (preBytes ++ (strBytes ("1.0.0") ++ lin :: strBytes ("go 1.17")))))
        8 9 (strBytes ("2.0.0"))) 8 9 (strBytes ("2.0.0")) =
      updateModVersion (modBytes ++ strBytes ("x") ++
        ([spc] ++ (preBytes ++ (strBytes ("1.0.0") ++ lin :: strBytes ("go 1.17")))))
        8 9 (strBytes ("2.0.0"))) :=
  ⟨Or.inl ⟨rfl, by decide, by decide, by decide, by decide⟩, by decide, by decide, by decide,
    c4_roundtrip (strBytes ("x")) (strBytes ("x")) [spc] (strBytes ("1.0.0"))
      (strBytes ("go 1.17")) (strBytes ("2.0.0")) _ _
      (Or.inl ⟨rfl, by decide, by decide, by decide, by decide⟩) (by decide) (by decide)
      (by decide) rfl rfl⟩

/-- C9: whenever the version step completes, the offset it returns is
exactly the position it was handed, the position right after the
identifier and before any whitespace skip, and the version is empty (with
length zero) exactly when no valid //v mark follows; in particular on a
declaration whose identifier is followed by a newline and then a line
that starts with a byte other than a slash, the scanner returns an empty
version, length zero, and the offset right after the identifier, not at
end of line. -/
theorem c9_no_version :
    (∀ (b : List Nat) (i0 : Nat) (ver : List Nat) (vlen i : Nat),
      parseModVersion b i0 = some (ver, vlen, i) →
        i = i0 ∧ (ver = [] → vlen = 0) ∧ (ver = [] ↔ hasVersionMark b i0 = false)) ∧
    (∀ (ident name : List Nat) (c : Nat) (rest : List Nat), IdentOK ident name →
      isspace c = false → c ≠ com →
      parseMod (modBytes ++ ident ++ (lin :: c :: rest)) 0 =
        some (name, [], 0, 7 + ident.length)) := by
  constructor
  · intro b i0 ver vlen i h
    unfold parseModVersion at h
    unfold hasVersionMark
    cases hnext : next b i0 false with
    | none => rw [hnext] at h; exact absurd h (by simp)
    | some p =>
      rw [hnext] at h
      dsimp only at h
      dsimp only
      cases hg : b[p]? with
      | none => rw [hg] at h; exact absurd h (by simp)
      | some c =>
        rw [hg] at h
        dsimp only at h ⊢
        by_cases hc : c = com
        · rw [if_pos hc] at h ⊢
          by_cases h3 : p + 3 ≤ b.length
          · rw [if_pos h3] at h ⊢
            by_cases hpre : slice b p (p + 3) = preBytes
            · rw [if_pos hpre] at h ⊢
              by_cases hvv : validVersion (slice b (p + 3) (search lin b (p + 3))) = true
              · rw [if_pos hvv] at h
                rw [hvv]
                simp only [Option.some.injEq, Prod.mk.injEq] at h
                obtain ⟨h1, h2, h3'⟩ := h
                have hne : ver ≠ [] := by
                  have hl := validVersion_len hvv
                  rw [h1] at hl
                  intro hcon
                  rw [hcon] at hl
                  simp at hl
                refine ⟨h3'.symm, fun hcon => absurd hcon hne, ?_⟩
                constructor
                · intro hcon; exact absurd hcon hne
                · intro hcon; exact absurd hcon (by simp)
              · rw [if_neg hvv] at h
                have hfalse : validVersion (slice b (p + 3) (search lin b (p + 3))) = false := by
                  cases hvb : validVersion (slice b (p + 3) (search lin b (p + 3))) with
                  | true => exact absurd hvb hvv
                  | false => rfl
                rw [hfalse]
                simp only [Option.some.injEq, Prod.mk.injEq] at h
                obtain ⟨h1, h2, h3'⟩ := h
                exact ⟨h3'.symm, fun _ => h2.symm, ⟨fun _ => rfl, fun _ => h1.symm⟩⟩
            · rw [if_neg hpre] at h ⊢
              simp only [Option.some.injEq, Prod.mk.injEq] at h
              obtain ⟨h1, h2, h3'⟩ := h
              exact ⟨h3'.symm, fun _ => h2.symm, ⟨fun _ => rfl, fun _ => h1.symm⟩⟩
          · rw [if_neg h3] at h
            exact absurd h (by simp)
        · rw [if_neg hc] at h ⊢
          simp only [Option.some.injEq, Prod.mk.injEq] at h
          obtain ⟨h1, h2, h3'⟩ := h
          exact ⟨h3'.symm, fun _ => h2.symm, ⟨fun _ => rfl, fun _ => h1.symm⟩⟩
  · intro ident name c rest hid hc1 hc2
    rw [parseMod_decl ident name (lin :: c :: rest) hid (by simp [nameStops, isspace, lin])]
    rw [parseModVersion_absent_of (modBytes ++ ident) [lin] c rest
      (by simp [isspace, lin]) hc1 hc2 (by simp) (by simp [modBytes_len])]

theorem c9_witness :
    IdentOK (strBytes ("x")) (strBytes ("x")) ∧ isspace 103 = false ∧ (103 : Nat) ≠ com ∧
    parseMod (modBytes ++ strBytes ("x") ++ (lin :: 103 :: strBytes ("o"))) 0 =
      some (strBytes ("x"), [], 0, 8) :=
  ⟨Or.inl ⟨rfl, by decide, by decide, by decide, by decide⟩, by decide, by decide,
    c9_no_version.2 (strBytes ("x")) (strBytes ("x")) 103 (strBytes ("o"))
      (Or.inl ⟨rfl, by decide, by decide, by decide, by decide⟩) (by decide) (by decide)⟩

/-- C5: for every buffer, offsets in range, and new version, the content
returned by the Splicer equals the bytes before versionOffset, then a
single space, then the //v lead-in with the new version, then the bytes
from versionOffset + versionLength on; all bytes outside the replaced
range are preserved pointwise and contiguously, the length follows the
splice arithmetic, and with versionLength zero the operation is an
insertion at versionOffset. -/
theorem c5_splice (bytes : List Nat) (vpos vlen : Nat) (version : List Nat)
    (h : vpos + vlen ≤ bytes.length) :
    updateModVersion bytes vpos vlen version =
      bytes.take vpos ++ spc :: (preBytes ++ version) ++ bytes.drop (vpos + vlen) ∧
    (∀ i, i < vpos → (updateModVersion bytes vpos vlen version)[i]? = bytes[i]?) ∧
    (∀ j, (updateModVersion bytes vpos vlen version)[vpos + 4 + version.length + j]? =
      bytes[vpos + vlen + j]?) ∧
    (updateModVersion bytes vpos vlen version).length =
      bytes.length + 4 + version.length - vlen ∧
    (vlen = 0 → updateModVersion bytes vpos 0 version =
      bytes.take vpos ++ (spc :: (preBytes ++ version)) ++ bytes.drop vpos) := by
  have hvp : vpos ≤ bytes.length := by omega
  have hform : updateModVersion bytes vpos vlen version =
      (bytes.take vpos ++ ([spc] ++ (preBytes ++ version))) ++ bytes.drop (vpos + vlen) := by
    simp [updateModVersion]
  have hP : (bytes.take vpos ++ ([spc] ++ (preBytes ++ version))).length =
      vpos + 4 + version.length := by
    simp only [List.length_append, List.length_take, preBytes_len, List.length_singleton]
    omega
  refine ⟨?_, ?_, ?_, ?_, ?_⟩
  · rw [hform]
    simp
  · intro i hi
    rw [hform, List.getElem?_append, if_pos (by rw [hP]; omega)]
    rw [List.getElem?_append, if_pos (by simp only [List.length_take]; omega)]
    rw [List.getElem?_take, if_pos hi]
  · intro j
    rw [hform]
    rw [show vpos + 4 + version.length + j =
      (bytes.take vpos ++ ([spc] ++ (preBytes ++ version))).length + j from by rw [hP]]
    rw [get_append_add, List.getElem?_drop]
  · rw [hform]
    simp only [List.length_append, hP, List.length_drop]
    omega
  · intro h0
    simp [updateModVersion]

theorem c5_witness :
    1 + 1 ≤ (strBytes ("ab")).length ∧
    (updateModVersion (strBytes ("ab")) 1 1 (strBytes ("7.0.0")) =
      (strBytes ("ab")).take 1 ++ spc :: (preBytes ++ strBytes ("7.0.0")) ++
        (strBytes ("ab")).drop (1 + 1) ∧
    (∀ i, i < 1 → (updateModVersion (strBytes ("ab")) 1 1 (strBytes ("7.0.0")))[i]? =
      (strBytes ("ab"))[i]?) ∧
    (∀ j, (updateModVersion (strBytes ("ab")) 1 1
        (strBytes ("7.0.0")))[1 + 4 + (strBytes ("7.0.0")).length + j]? =
      (strBytes ("ab"))[1 + 1 + j]?) ∧
    (updateModVersion (strBytes ("ab")) 1 1 (strBytes ("7.0.0"))).length =
      (strBytes ("ab")).length + 4 + (strBytes ("7.0.0")).length - 1 ∧
    (1 = 0 → updateModVersion (strBytes ("ab")) 1 0 (strBytes ("7.0.0")) =
      (strBytes ("ab")).take 1 ++ (spc :: (preBytes ++ strBytes ("7.0.0"))) ++
        (strBytes ("ab")).drop 1)) :=
  ⟨by decide, c5_splice (strBytes ("ab")) 1 1 (strBytes ("7.0.0")) (by decide)⟩

/-- C2 as stated is false: with the Go append semantics of the source,
replacing the 9-byte version range of the buffer "module x //v1.0.0"
(capacity 17, the least any slice of length 17 can have; any larger
capacity behaves the same) by version 2.0.0 overwrites the input buffer
in place: after the call the input slice reads "module x //v2.0.0", not
its original content, and the returned slice aliases it. -/
theorem c2_cx :
    (updateModVersionAlias (strBytes ("module x //v1.0.0")) 17 8 9 (strBytes ("2.0.0"))).2 ≠
      strBytes ("module x //v1.0.0") ∧
    (updateModVersionAlias (strBytes ("module x //v1.0.0")) 17 8 9 (strBytes ("2.0.0"))).2 =
      strBytes ("module x //v2.0.0") ∧
    (updateModVersionAlias (strBytes ("module x //v1.0.0")) 17 8 9 (strBytes ("2.0.0"))).1 =
      strBytes ("module x //v2.0.0") := by
  refine ⟨?_, ?_, ?_⟩ <;> decide

/-- C2 amended: the Splicer returns a slice holding exactly the spliced
content, and the bytes of the input buffer before versionOffset are never
modified, but the operation is not guaranteed to leave the input intact:
whenever the spliced tail fits within the capacity of the input slice,
append writes through the input's backing array, so the visible input
bytes from versionOffset on become the spliced content (old bytes beyond
the new content survive on a shrinking splice); only when the tail
exceeds the capacity is a fresh buffer allocated and the input left
unchanged. -/
theorem c2_alias (bytes : List Nat) (cap vpos vlen : Nat) (version : List Nat)
    (h : vpos + vlen ≤ bytes.length) :
    (updateModVersionAlias bytes cap vpos vlen version).1 =
      updateModVersion bytes vpos vlen version ∧
    ((updateModVersionAlias bytes cap vpos vlen version).2).take vpos = bytes.take vpos ∧
    ((updateModVersionAlias bytes cap vpos vlen version).2).length = bytes.length ∧
    (vpos + (4 + version.length + (bytes.length - (vpos + vlen))) ≤ cap →
      ∀ k, k < bytes.length →
        ((updateModVersionAlias bytes cap vpos vlen version).2)[k]? =
          if k < vpos + (4 + version.length + (bytes.length - (vpos + vlen))) then
            (updateModVersion bytes vpos vlen version)[k]?
          else bytes[k]?) ∧
    (¬ vpos + (4 + version.length + (bytes.length - (vpos + vlen))) ≤ cap →
      (updateModVersionAlias bytes cap vpos vlen version).2 = bytes) := by
  have hvp : vpos ≤ bytes.length := by omega
  have hxl : ((([] ++ [spc]) ++ (preBytes ++ version)) ++ bytes.drop (vpos + vlen)).length =
      4 + version.length + (bytes.length - (vpos + vlen)) := by
    simp only [List.length_append, List.length_drop, preBytes_len, List.length_singleton,
      List.length_nil]
    omega
  have hup : updateModVersion bytes vpos vlen version =
      bytes.take vpos ++ ((([] ++ [spc]) ++ (preBytes ++ version)) ++ bytes.drop (vpos + vlen)) :=
    rfl
  have hPlen : (bytes.take vpos ++
      ((([] ++ [spc]) ++ (preBytes ++ version)) ++ bytes.drop (vpos + vlen))).length =
      vpos + (4 + version.length + (bytes.length - (vpos + vlen))) := by
    simp only [List.length_append, List.length_take, List.length_drop, preBytes_len,
      List.length_singleton, List.length_nil]
    omega
  by_cases hfit : vpos + ((([] ++ [spc]) ++ (preBytes ++ version)) ++
      bytes.drop (vpos + vlen)).length ≤ cap
  · have halias : updateModVersionAlias bytes cap vpos vlen version =
        (bytes.take vpos ++ ((([] ++ [spc]) ++ (preBytes ++ version)) ++
          bytes.drop (vpos + vlen)),
         ((bytes.take vpos ++ ((([] ++ [spc]) ++ (preBytes ++ version)) ++
            bytes.drop (vpos + vlen))) ++
           bytes.drop (vpos + ((([] ++ [spc]) ++ (preBytes ++ version)) ++
            bytes.drop (vpos + vlen)).length)).take bytes.length) := by
      unfold updateModVersionAlias
      rw [if_pos hfit]
    rw [halias]
    rw [hxl] at hfit ⊢
    refine ⟨rfl, ?_, ?_, ?_, ?_⟩
    · rw [List.take_take, Nat.min_eq_left hvp]
      rw [List.take_append_of_le_length (by rw [hPlen]; omega)]
      rw [List.take_append_of_le_length (by simp only [List.length_take]; omega)]
      rw [List.take_take, Nat.min_self]
    · simp only [List.length_take, List.length_append, List.length_drop, preBytes_len,
        List.length_singleton, List.length_nil]
      omega
    · intro _ k hk
      rw [List.getElem?_take, if_pos hk]
      by_cases hcase : k < vpos + (4 + version.length + (bytes.length - (vpos + vlen)))
      · rw [if_pos hcase]
        rw [List.getElem?_append, if_pos (by rw [hPlen]; omega)]
        rw [hup]
      · rw [if_neg hcase]
        rw [List.getElem?_append_right (by rw [hPlen]; omega)]
        rw [hPlen, List.getElem?_drop]
        rw [show vpos + (4 + version.length + (bytes.length - (vpos + vlen))) +
          (k - (vpos + (4 + version.length + (bytes.length - (vpos + vlen))))) = k from by
            omega]
    · intro hfit2
      exact absurd hfit hfit2
  · have halias : updateModVersionAlias bytes cap vpos vlen version =
        (bytes.take vpos ++ ((([] ++ [spc]) ++ (preBytes ++ version)) ++
          bytes.drop (vpos + vlen)), bytes) := by
      unfold updateModVersionAlias
      rw [if_neg hfit]
    rw [halias]
    rw [hxl] at hfit
    exact ⟨rfl, rfl, rfl, fun hfit2 => absurd hfit2 hfit, fun _ => rfl⟩

theorem c2_witness :
    1 + 1 ≤ (strBytes ("ab")).length ∧
    ((updateModVersionAlias (strBytes ("ab")) 10 1 1 (strBytes ("7.0.0"))).1 =
      updateModVersion (strBytes ("ab")) 1 1 (strBytes ("7.0.0")) ∧
    ((updateModVersionAlias (strBytes ("ab")) 10 1 1 (strBytes ("7.0.0"))).2).take 1 =
      (strBytes ("ab")).take 1 ∧
    ((updateModVersionAlias (strBytes ("ab")) 10 1 1 (strBytes ("7.0.0"))).2).length =
      (strBytes ("ab")).length ∧
    (1 + (4 + (strBytes ("7.0.0")).length + ((strBytes ("ab")).length - (1 + 1))) ≤ 10 →
      ∀ k, k < (strBytes ("ab")).length →
        ((updateModVersionAlias (strBytes ("ab")) 10 1 1 (strBytes ("7.0.0"))).2)[k]? =
          if k < 1 + (4 + (strBytes ("7.0.0")).length + ((strBytes ("ab")).length - (1 + 1)))
          then (updateModVersion (strBytes ("ab")) 1 1 (strBytes ("7.0.0")))[k]?
          else (strBytes ("ab"))[k]?) ∧
    (¬ 1 + (4 + (strBytes ("7.0.0")).length + ((strBytes ("ab")).length - (1 + 1))) ≤ 10 →
      (updateModVersionAlias (strBytes ("ab")) 10 1 1 (strBytes ("7.0.0"))).2 =
        strBytes ("ab"))) :=
  ⟨by decide, c2_alias (strBytes ("ab")) 10 1 1 (strBytes ("7.0.0")) (by decide)⟩

/-- C6 as stated is false: validVersion accepts the string 1..00 although
its middle component is empty, so acceptance is not equivalent to the
claimed rule that every dot-separated component is a nonempty digit
run. -/
theorem c6_cx :
    validVersion (strBytes ("1..00")) = true ∧
    specVersionOk (strBytes ("1..00")) = false := by
  refine ⟨?_, ?_⟩ <;> decide

/-- C6 amended: validVersion accepts a byte string exactly when its
length is at least five, its first and last bytes are ASCII digits, and
every byte is an ASCII digit or a dot; empty components between
consecutive dots are not rejected.  The rejections listed in the claim
(too short, non-digit non-dot bytes, not starting or ending in a digit)
all follow. -/
theorem c6_valid_iff : ∀ b : List Nat,
    validVersion b = true ↔
      (5 ≤ b.length ∧ (∃ c0, b.head? = some c0 ∧ 48 ≤ c0 ∧ c0 ≤ 57) ∧
        (∃ c1, b.getLast? = some c1 ∧ 48 ≤ c1 ∧ c1 ≤ 57) ∧
        ∀ c ∈ b, (48 ≤ c ∧ c ≤ 57) ∨ c = dot) := by
  intro b
  unfold validVersion
  constructor
  · intro hb
    simp only [Bool.and_eq_true, decide_eq_true_eq, List.all_eq_true] at hb
    obtain ⟨⟨⟨hlen, hh⟩, hl⟩, hall⟩ := hb
    refine ⟨by omega, ?_, ?_, ?_⟩
    · cases b with
      | nil => simp at hlen
      | cons a l =>
        refine ⟨a, rfl, ?_⟩
        have ha : isnum a = true := hh
        unfold isnum at ha
        simp only [Bool.and_eq_true, decide_eq_true_eq] at ha
        exact ha
    · rcases List.eq_nil_or_concat b with rfl | ⟨init, lst, rfl⟩
      · simp at hlen
      · simp only [List.concat_eq_append] at hl ⊢
        refine ⟨lst, List.getLast?_concat init, ?_⟩
        rw [List.getLastD_concat] at hl
        unfold isnum at hl
        simp only [Bool.and_eq_true, decide_eq_true_eq] at hl
        exact hl
    · intro c hc
      have := hall c hc
      simp only [Bool.or_eq_true, Bool.and_eq_true, decide_eq_true_eq, beq_iff_eq] at this
      unfold isnum at this
      simp only [Bool.and_eq_true, decide_eq_true_eq] at this
      exact this
  · rintro ⟨hlen, ⟨c0, hc0h, hc0a, hc0b⟩, ⟨c1, hc1h, hc1a, hc1b⟩, hall⟩
    simp only [Bool.and_eq_true, decide_eq_true_eq, List.all_eq_true]
    refine ⟨⟨⟨by omega, ?_⟩, ?_⟩, ?_⟩
    · cases b with
      | nil => simp at hc0h
      | cons a l =>
        simp only [List.head?_cons, Option.some.injEq] at hc0h
        subst hc0h
        unfold isnum
        simp only [Bool.and_eq_true, decide_eq_true_eq]
        exact ⟨hc0a, hc0b⟩
    · rcases List.eq_nil_or_concat b with rfl | ⟨init, lst, rfl⟩
      · simp at hc0h
      · simp only [List.concat_eq_append] at hc1h ⊢
        rw [List.getLast?_concat init] at hc1h
        simp only [Option.some.injEq] at hc1h
        subst hc1h
        rw [List.getLastD_concat]
        unfold isnum
        simp only [Bool.and_eq_true, decide_eq_true_eq]
        exact ⟨hc1a, hc1b⟩
    · intro c hc
      rcases hall c hc with ⟨ha, hb2⟩ | hd
      · unfold isnum
        simp [ha, hb2]
      · simp [hd]

theorem c6_witness :
    validVersion (strBytes ("0.0.0")) = true ↔
      (5 ≤ (strBytes ("0.0.0")).length ∧
        (∃ c0, (strBytes ("0.0.0")).head? = some c0 ∧ 48 ≤ c0 ∧ c0 ≤ 57) ∧
        (∃ c1, (strBytes ("0.0.0")).getLast? = some c1 ∧ 48 ≤ c1 ∧ c1 ≤ 57) ∧
        ∀ c ∈ strBytes ("0.0.0"), (48 ≤ c ∧ c ≤ 57) ∨ c = dot) :=
  c6_valid_iff (strBytes ("0.0.0"))

theorem goAtoi_digits (ds : List Nat) (hne : ds ≠ []) (hdig : ∀ c ∈ ds, isnum c = true)
    (hlt : natOfDigits ds < 2 ^ 63) : goAtoi ds = ((natOfDigits ds : Int), false) := by
  obtain ⟨d, rest, rfl⟩ : ∃ d rest, ds = d :: rest := by
    cases ds with
    | nil => exact absurd rfl hne
    | cons a l => exact ⟨a, l, rfl⟩
  have hd := hdig d (by simp)
  unfold isnum at hd
  simp only [Bool.and_eq_true, decide_eq_true_eq] at hd
  unfold goAtoi
  rw [if_neg (by simp only [List.headD_cons]; omega), if_neg (by simp only [List.headD_cons]; omega)]
  unfold goAtoiMag
  rw [if_neg (by simp)]
  rw [if_pos (List.all_eq_true.mpr hdig)]
  have hle : (natOfDigits (d :: rest) : Int) ≤ 2 ^ 63 - 1 := by
    have : (natOfDigits (d :: rest) : Int) < 2 ^ 63 := by exact_mod_cast hlt
    omega
  rw [if_neg (by simp), if_pos hle]

theorem wrap64_self (i : Int) (h0 : 0 ≤ i) (h1 : i < 2 ^ 63) : wrap64 i = i := by
  unfold wrap64
  rw [Int.emod_eq_of_lt (by omega) (by omega)]
  omega

theorem itoa_natCast (m : Nat) : itoa (m : Int) = natDigits m := by
  unfold itoa
  rw [if_neg (by omega)]
  simp

/-- C7 counterexample to the claim as stated: at the current version
9223372036854775807 (the int64 maximum) the bump step wraps, so decide
returns version -9223372036854775808 (judged valid), not the successor
9223372036854775808 the claim describes. -/
theorem c7_cx :
    assessVersion (strBytes ("9223372036854775807")) [] =
      (strBytes ("-9223372036854775808"), true) ∧
    strBytes ("-9223372036854775808") ≠ strBytes ("9223372036854775808") := by
  refine ⟨?_, ?_⟩ <;> decide

/-- C7 amended: with an empty user version the decision is always valid;
an empty current version yields the fixed baseline 0.0.0; and when the
final dot-separated component of the current version is a nonempty digit
run of value n with n + 1 below 2 ^ 63 (the Go int64 bound, past which
the source increment wraps), the result replaces that component by the
decimal digits of n + 1 and leaves every other component unchanged. -/
theorem c7_next (cv : List Nat) (init : List (List Nat)) (lastc : List Nat) (n : Nat)
    (hsplit : splitByte dot cv = init ++ [lastc]) (hne : lastc ≠ [])
    (hdig : ∀ c ∈ lastc, isnum c = true) (hn : natOfDigits lastc = n)
    (hlt : n + 1 < 2 ^ 63) :
    assessVersion cv [] = (List.intercalate [dot] (init ++ [natDigits (n + 1)]), true) ∧
    assessVersion [] [] = (strBytes ("0.0.0"), true) ∧
    (∀ cv2 : List Nat, (assessVersion cv2 []).2 = true) := by
  refine ⟨?_, by decide, fun cv2 => rfl⟩
  have hcvne : cv ≠ [] := by
    intro hcon
    subst hcon
    unfold splitByte at hsplit
    cases init with
    | nil => simp at hsplit; exact hne hsplit
    | cons i is => simp at hsplit
  unfold assessVersion
  rw [if_pos rfl]
  unfold nextVersion
  rw [if_neg hcvne, hsplit, List.dropLast_concat, List.getLastD_concat]
  rw [goAtoi_digits lastc hne hdig (by omega), hn]
  have hcast : (n : Int) + 1 = ((n + 1 : Nat) : Int) := by push_cast; ring
  rw [hcast, wrap64_self _ (by omega) (by exact_mod_cast hlt), itoa_natCast]

theorem c7_witness :
    splitByte dot (strBytes ("0.1.0")) =
      ([strBytes ("0"), strBytes ("1")] : List (List Nat)) ++ [strBytes ("0")] ∧
    strBytes ("0") ≠ [] ∧ (∀ c ∈ strBytes ("0"), isnum c = true) ∧
    natOfDigits (strBytes ("0")) = 0 ∧ 0 + 1 < 2 ^ 63 ∧
    (assessVersion (strBytes ("0.1.0")) [] =
      (List.intercalate [dot]
        (([strBytes ("0"), strBytes ("1")] : List (List Nat)) ++ [natDigits (0 + 1)]), true) ∧
    assessVersion [] [] = (strBytes ("0.0.0"), true) ∧
    (∀ cv2 : List Nat, (assessVersion cv2 []).2 = true)) :=
  ⟨by decide, by decide, by decide, by decide, by decide,
    c7_next (strBytes ("0.1.0")) ([strBytes ("0"), strBytes ("1")] : List (List Nat))
      (strBytes ("0")) 0 (by decide) (by decide) (by decide) (by decide) (by decide)⟩

theorem validVersion_ne_nil {b : List Nat} (h : validVersion b = true) : b ≠ [] := by
  intro hcon
  subst hcon
  exact absurd (validVersion_len h) (by simp)

theorem cmpParts_iff :
    ∀ (cp up : List (List Nat)), cp.length = up.length →
    (∀ p ∈ cp, p ≠ [] ∧ (∀ c ∈ p, isnum c = true) ∧ natOfDigits p < 2 ^ 63) →
    (∀ p ∈ up, p ≠ [] ∧ (∀ c ∈ p, isnum c = true) ∧ natOfDigits p < 2 ^ 63) →
    (cmpParts (cp.zip up) = true ↔
      ∃ k, k < cp.length ∧
        (∀ j, j < k → natOfDigits (up.getD j []) = natOfDigits (cp.getD j [])) ∧
        natOfDigits (cp.getD k []) < natOfDigits (up.getD k [])) := by
  intro cp
  induction cp with
  | nil =>
    intro up hlen _ _
    simp [cmpParts]
  | cons c cs ih =>
    intro up hlen hcd hud
    cases up with
    | nil => simp at hlen
    | cons u us =>
      obtain ⟨hcne, hcdig, hclt⟩ := hcd c (by simp)
      obtain ⟨hune, hudig, hult⟩ := hud u (by simp)
      have hgc := goAtoi_digits c hcne hcdig hclt
      have hgu := goAtoi_digits u hune hudig hult
      simp only [List.zip_cons_cons]
      unfold cmpParts
      rw [hgc, hgu]
      dsimp only
      rw [if_neg (by simp)]
      by_cases hlt1 : (natOfDigits c : Int) < (natOfDigits u : Int)
      · rw [if_pos hlt1]
        have hnat : natOfDigits c < natOfDigits u := by exact_mod_cast hlt1
        constructor
        · intro _
          exact ⟨0, by simp, fun j hj => by omega, by simpa using hnat⟩
        · intro _; rfl
      · rw [if_neg hlt1]
        by_cases hlt2 : (natOfDigits u : Int) < (natOfDigits c : Int)
        · rw [if_pos hlt2]
          have hnat : natOfDigits u < natOfDigits c := by exact_mod_cast hlt2
          constructor
          · intro hcon; exact absurd hcon (by simp)
          · rintro ⟨k, hk, hpre, hgt⟩
            cases k with
            | zero =>
              simp only [List.getD_cons_zero] at hgt
              omega
            | succ k' =>
              have h0 := hpre 0 (by omega)
              simp only [List.getD_cons_zero] at h0
              omega
        · rw [if_neg hlt2]
          have heq : natOfDigits c = natOfDigits u := by
            have h1 : ¬ natOfDigits c < natOfDigits u := fun hcon =>
              hlt1 (by exact_mod_cast hcon)
            have h2 : ¬ natOfDigits u < natOfDigits c := fun hcon =>
              hlt2 (by exact_mod_cast hcon)
            omega
          rw [ih us (by simpa using hlen) (fun p hp => hcd p (by simp [hp]))
            (fun p hp => hud p (by simp [hp]))]
          constructor
          · rintro ⟨k, hk, hpre, hgt⟩
            refine ⟨k + 1, by simpa using Nat.succ_lt_succ hk, ?_, by simpa using hgt⟩
            intro j hj
            cases j with
            | zero => simpa using heq.symm
            | succ j' =>
              have := hpre j' (by omega)
              simpa using this
          · rintro ⟨k, hk, hpre, hgt⟩
            cases k with
            | zero =>
              simp only [List.getD_cons_zero] at hgt
              omega
            | succ k' =>
              refine ⟨k', by simpa using hk, ?_, by simpa using hgt⟩
              intro j hj
              have := hpre (j + 1) (by omega)
              simpa using this

/-- C8 counterexample to the claim as stated: the user version
9223372036854775808 passes the validity rules, has the same component
count as the current version 9223372036854775807, and is strictly greater
as an integer, yet decide rejects it, because strconv.Atoi clamps the
overflowing component to the int64 maximum and the two versions then
compare as equal. -/
theorem c8_cx :
    assessVersion (strBytes ("9223372036854775807")) (strBytes ("9223372036854775808")) =
      ([], false) ∧
    natOfDigits (strBytes ("9223372036854775807")) <
      natOfDigits (strBytes ("9223372036854775808")) ∧
    validVersion (strBytes ("9223372036854775808")) = true ∧
    (splitByte dot (strBytes ("9223372036854775807"))).length =
      (splitByte dot (strBytes ("9223372036854775808"))).length := by
  refine ⟨?_, ?_, ?_, ?_⟩ <;> decide

/-- C8 amended: for a non-empty user version that passes the validity
rules and differs textually from the non-empty current version, with all
components of both versions nonempty digit runs whose values are below
2 ^ 63 (the Go int64 bound; past it Atoi clamps, see the counterexample):
the decision either accepts the user version or rejects with an empty
result, and it accepts exactly when the component counts agree and at the
first integer-compared difference the user component is strictly greater;
an equal sequence is rejected, and a user version failing the validity
rules is always rejected. -/
theorem c8_user (current user : List Nat) (hvu : validVersion user = true)
    (hcne : current ≠ []) (hneq : current ≠ user)
    (hcd : ∀ p ∈ splitByte dot current, p ≠ [] ∧ (∀ c ∈ p, isnum c = true) ∧
      natOfDigits p < 2 ^ 63)
    (hud : ∀ p ∈ splitByte dot user, p ≠ [] ∧ (∀ c ∈ p, isnum c = true) ∧
      natOfDigits p < 2 ^ 63) :
    (assessVersion current user = (user, true) ∨
      assessVersion current user = ([], false)) ∧
    (assessVersion current user = (user, true) ↔
      ((splitByte dot current).length = (splitByte dot user).length ∧
        ∃ k, k < (splitByte dot current).length ∧
          (∀ j, j < k → natOfDigits ((splitByte dot user).getD j []) =
            natOfDigits ((splitByte dot current).getD j [])) ∧
          natOfDigits ((splitByte dot current).getD k []) <
            natOfDigits ((splitByte dot user).getD k []))) ∧
    (∀ u2 : List Nat, u2 ≠ [] → validVersion u2 = false →
      assessVersion current u2 = ([], false)) := by
  have hune : user ≠ [] := validVersion_ne_nil hvu
  have hassess : assessVersion current user =
      if validUserVersion current user = false then ([], false) else (user, true) := by
    unfold assessVersion
    rw [if_neg hune]
  have hvuv : validUserVersion current user =
      (if (splitByte dot current).length = (splitByte dot user).length then
        cmpParts ((splitByte dot current).zip (splitByte dot user)) else false) := by
    unfold validUserVersion
    rw [if_neg (by simp [hvu]), if_neg hcne, if_neg hneq]
  refine ⟨?_, ?_, ?_⟩
  · rw [hassess]
    by_cases hb : validUserVersion current user = false
    · rw [if_pos hb]
      exact Or.inr rfl
    · rw [if_neg hb]
      exact Or.inl rfl
  · rw [hassess, hvuv]
    by_cases hlen : (splitByte dot current).length = (splitByte dot user).length
    · rw [if_pos hlen]
      cases hcmp : cmpParts ((splitByte dot current).zip (splitByte dot user)) with
      | true =>
        rw [if_neg (by simp)]
        constructor
        · intro _
          exact ⟨hlen, (cmpParts_iff (splitByte dot current) (splitByte dot user) hlen hcd
            hud).mp hcmp⟩
        · intro _; rfl
      | false =>
        rw [if_pos rfl]
        constructor
        · intro hcon
          exact absurd (congrArg Prod.snd hcon) (by simp)
        · rintro ⟨_, hex⟩
          have := (cmpParts_iff (splitByte dot current) (splitByte dot user) hlen hcd
            hud).mpr hex
          rw [hcmp] at this
          exact absurd this (by simp)
    · rw [if_neg hlen, if_pos rfl]
      constructor
      · intro hcon
        exact absurd (congrArg Prod.snd hcon) (by simp)
      · rintro ⟨hl, _⟩
        exact absurd hl hlen
  · intro u2 hne2 hinv
    have hfalse : validUserVersion current u2 = false := by
      unfold validUserVersion
      rw [if_pos hinv]
    unfold assessVersion
    rw [if_neg hne2, if_pos hfalse]

theorem c8_witness :
    validVersion (strBytes ("0.1.1")) = true ∧
    strBytes ("0.1.0") ≠ [] ∧
    strBytes ("0.1.0") ≠ strBytes ("0.1.1") ∧
    (∀ p ∈ splitByte dot (strBytes ("0.1.0")), p ≠ [] ∧ (∀ c ∈ p, isnum c = true) ∧
      natOfDigits p < 2 ^ 63) ∧
    (∀ p ∈ splitByte dot (strBytes ("0.1.1")), p ≠ [] ∧ (∀ c ∈ p, isnum c = true) ∧
      natOfDigits p < 2 ^ 63) ∧
    ((assessVersion (strBytes ("0.1.0")) (strBytes ("0.1.1")) = (strBytes ("0.1.1"), true) ∨
      assessVersion (strBytes ("0.1.0")) (strBytes ("0.1.1")) = ([], false)) ∧
    (assessVersion (strBytes ("0.1.0")) (strBytes ("0.1.1")) = (strBytes ("0.1.1"), true) ↔
      ((splitByte dot (strBytes ("0.1.0"))).length =
          (splitByte dot (strBytes ("0.1.1"))).length ∧
        ∃ k, k < (splitByte dot (strBytes ("0.1.0"))).length ∧
          (∀ j, j < k → natOfDigits ((splitByte dot (strBytes ("0.1.1"))).getD j []) =
            natOfDigits ((splitByte dot (strBytes ("0.1.0"))).getD j [])) ∧
          natOfDigits ((splitByte dot (strBytes ("0.1.0"))).getD k []) <
            natOfDigits ((splitByte dot (strBytes ("0.1.1"))).getD k []))) ∧
    (∀ u2 : List Nat, u2 ≠ [] → validVersion u2 = false →
      assessVersion (strBytes ("0.1.0")) u2 = ([], false))) :=
  ⟨by decide, by decide, by decide, by decide, by decide,
    c8_user (strBytes ("0.1.0")) (strBytes ("0.1.1")) (by decide) (by decide) (by decide)
      (by decide) (by decide)⟩

end Pub
